import Mathlib

/-!
# Verification of the StarRocks columnar-batch / bloom-filter core

This file gives a shallow embedding, in Lean 4, of the parts of the
repository that the specification talks about:

* `be/src/storage/rowset/segment_v2/bloom_filter.h` — the `BloomFilter`
  base class (wire layout, null handling, byte-level add/test wrappers,
  the two `init` paths, `reset`, the fixed hash seed);
* the ORC-derived `Vector.hh` header — the `ColumnVectorBatch` family and
  `StringDictionary::getValueByIndex`;
* the per-variant `filter` (row-selection) operation, whose bodies live in
  `Vector.cc` which is not among the given sources; those are modelled from
  the specification's description (§4.2 and §4.3 of the spec).

Machine integers are modelled as `Nat`/`Int`; buffers as `List`s; fallible
initialisation as `Except String`.  The murmur hash function
(`util/murmur_hash3.h`, not among the sources) is carried as an explicit
function parameter `H`; the probe-position derivation of the concrete
`BloomFilter` subclass (`add_hash`/`test_hash` are pure virtual in the given
header) is carried as an explicit parameter `probes`.
-/

namespace StarRocks

/-- The hash-strategy protobuf enum (`HashStrategyPB`, from
`gen_cpp/segment_v2.pb.h`).  The sources only ever compare against
`HASH_MURMUR3_X64_64`; every other enum value is collapsed into
`HASH_UNKNOWN`. -/
inductive HashStrategyPB where
  | HASH_UNKNOWN
  | HASH_MURMUR3_X64_64
  deriving DecidableEq, Repr

/-- Type of the 64-bit hash function stored in `_hash_func`:
`(buf, size, seed) ↦ hash code`. -/
abbrev HashFn := List Nat → Nat → Nat → Nat

/-- Type of the probe-position derivation of the concrete subclass:
`(hash code, num_bytes) ↦ bit positions probed in the bit array`. -/
abbrev ProbeFn := Nat → Nat → List Nat

/-- `BloomFilter::DEFAULT_SEED` (bloom_filter.h line 49). -/
def DEFAULT_SEED : Nat := 1575457558

/-- `BloomFilter::MINIMUM_BYTES` (bloom_filter.h line 52). -/
def MINIMUM_BYTES : Nat := 32

/-- `BloomFilter::MAXIMUM_BYTES` (bloom_filter.h line 55). -/
def MAXIMUM_BYTES : Nat := 128 * 1024 * 1024

/-- The state of a `BloomFilter` object (bloom_filter.h lines 149-163).
`data` models the `_size`-byte heap buffer `_data`; the `_has_null` pointer
of the C++ aliases byte `num_bytes` of `data`, so it is not a separate
field here. -/
structure BloomFilter where
  data : List Nat
  num_bytes : Nat
  size : Nat
  hash_func : HashFn

/-- Structural well-formedness that both `init` paths establish:
`_size == _num_bytes + 1` and the buffer really has `_size` bytes. -/
def bfWF (f : BloomFilter) : Bool :=
  f.size == f.num_bytes + 1 && f.data.length == f.size

/-- Smallest power of two that is `≥ m` (for `m ≥ 1`); used to model the
"rounded up to the next power of two" step of the sizing rule. -/
def nextPow2 (m : Nat) : Nat := 2 ^ Nat.clog 2 m

/-- Modelled from the spec: `BloomFilter::_optimal_bit_num` is only declared
in the given header (bloom_filter.h line 147, "the result will be power of
2"); its body lives in `bloom_filter.cpp`, which is not among the sources.
Per the spec (§4.4): the optimal bit count is `ceil(-n*ln(fpp)/(ln 2)^2)`,
rounded up to the next power of two, with the byte count clamped to
`[MINIMUM_BYTES, MAXIMUM_BYTES]`.  The transcendental ceiling term is not
expressible as an executable function, so it is taken as an explicit
argument `rawBits`; this function performs the rounding and the clamping
(at the bit level, so that the result divided by 8 is the clamped byte
count). -/
def optimal_bit_num (rawBits : Nat) : Nat :=
  min (max (nextPow2 rawBits) (8 * MINIMUM_BYTES)) (8 * MAXIMUM_BYTES)

/-- The write path `BloomFilter::init(n, fpp, strategy)` (bloom_filter.h
lines 65-81).  `rawBits` stands for the transcendental part of
`_optimal_bit_num (n, fpp)` (see `optimal_bit_num`); `H` is
`murmur_hash3_x64_64`.  On success: `_num_bytes = _optimal_bit_num(n,fpp)/8`,
`_size = _num_bytes + 1`, the buffer is zero-filled (`memset`), and the
has-null byte is cleared. -/
def init_write (H : HashFn) (rawBits : Nat → Rat → Nat) (n : Nat) (fpp : Rat)
    (strategy : HashStrategyPB) : Except String BloomFilter :=
  if strategy = HashStrategyPB.HASH_MURMUR3_X64_64 then
    let nb := optimal_bit_num (rawBits n fpp) / 8
    Except.ok { data := List.replicate (nb + 1) 0
                num_bytes := nb
                size := nb + 1
                hash_func := H }
  else
    Except.error "invalid strategy"

/-- The read path `BloomFilter::init(buf, size, strategy)` (bloom_filter.h
lines 85-101).  Deep-copies `size` bytes of `buf`; `_num_bytes = size - 1`.
Note the release-mode behaviour: the `DCHECK(size > 1)` compiles away and
the only size check that returns an error is `size == 0`. -/
def init_read (H : HashFn) (buf : List Nat) (size : Nat)
    (strategy : HashStrategyPB) : Except String BloomFilter :=
  if strategy = HashStrategyPB.HASH_MURMUR3_X64_64 then
    if size = 0 then
      Except.error "invalid size"
    else
      Except.ok { data := buf.take size
                  num_bytes := size - 1
                  size := size
                  hash_func := H }
  else
    Except.error "invalid strategy"

/-- `BloomFilter::reset()` (bloom_filter.h line 103):
`memset(_data, 0, _size)`. -/
def BloomFilter.reset (f : BloomFilter) : BloomFilter :=
  { f with data := List.replicate f.size 0 }

/-- `BloomFilter::hash(buf, size)` (bloom_filter.h lines 105-109): applies
the stored `_hash_func` with the fixed seed `DEFAULT_SEED`. -/
def BloomFilter.hash (f : BloomFilter) (buf : List Nat) (size : Nat) : Nat :=
  f.hash_func buf size DEFAULT_SEED

/-- `BloomFilter::has_null()` (bloom_filter.h line 136): reads the byte at
offset `_num_bytes` of `_data` as a boolean. -/
def BloomFilter.hasNullFlag (f : BloomFilter) : Bool :=
  f.data.getD f.num_bytes 0 != 0

/-- `BloomFilter::set_has_null(b)` (bloom_filter.h line 134): writes the
byte at offset `_num_bytes` of `_data`. -/
def BloomFilter.setHasNull (f : BloomFilter) (b : Bool) : BloomFilter :=
  { f with data := f.data.set f.num_bytes (if b then 1 else 0) }

/-- Set bit `pos` of the byte-array `data` (byte `pos / 8`, bit
`pos % 8`). -/
def setBit (data : List Nat) (pos : Nat) : List Nat :=
  data.set (pos / 8) (data.getD (pos / 8) 0 ||| 2 ^ (pos % 8))

/-- Test bit `pos` of the byte-array `data`. -/
def testBitAt (data : List Nat) (pos : Nat) : Bool :=
  (data.getD (pos / 8) 0).testBit (pos % 8)

/-- Modelled from the spec: `add_hash` is pure virtual in the given header
(bloom_filter.h line 138); the concrete subclass chosen by the
`BloomFilter::create` factory is not among the sources.  Per the spec
(§4.4) the hash code "is folded into the fixed-size bit array via however
many probe positions the concrete subtype chooses to derive from the single
64-bit hash"; the derivation is the parameter `probes`, and adding sets
every derived bit. -/
def add_hash (probes : ProbeFn) (f : BloomFilter) (code : Nat) : BloomFilter :=
  { f with data := (probes code f.num_bytes).foldl setBit f.data }

/-- Modelled from the spec: `test_hash` is pure virtual in the given header
(bloom_filter.h line 139); testing checks that every probe position derived
from the hash code is set.  See `add_hash`. -/
def test_hash (probes : ProbeFn) (f : BloomFilter) (code : Nat) : Bool :=
  (probes code f.num_bytes).all (testBitAt f.data)

/-- The probe derivation stays inside the bit array (the first
`8 * num_bytes` bits); this is what makes the subclass a bloom filter over
the bit array rather than the trailing flag byte. -/
def probesWF (probes : ProbeFn) : Prop :=
  ∀ code nb p, p ∈ probes code nb → p < 8 * nb

/-- `BloomFilter::add_bytes(buf, size)` (bloom_filter.h lines 111-118).
`buf = none` models a null `char*`. -/
def add_bytes (probes : ProbeFn) (f : BloomFilter) (buf : Option (List Nat))
    (size : Nat) : BloomFilter :=
  match buf with
  | none => f.setHasNull true
  | some v => add_hash probes f (f.hash v size)

/-- `BloomFilter::test_bytes(buf, size)` (bloom_filter.h lines 120-126). -/
def test_bytes (probes : ProbeFn) (f : BloomFilter) (buf : Option (List Nat))
    (size : Nat) : Bool :=
  match buf with
  | none => f.hasNullFlag
  | some v => test_hash probes f (f.hash v size)

/-- A sequence of `add_bytes` calls applied in order. -/
def addSeq (probes : ProbeFn) (f : BloomFilter)
    (ops : List (Option (List Nat) × Nat)) : BloomFilter :=
  ops.foldl (fun g op => add_bytes probes g op.1 op.2) f

/-! ## StringDictionary (Vector.hh lines 355-372) -/

/-- `orc::StringDictionary`: an owned blob plus an offsets buffer with one
entry per key boundary (`keyCount + 1` entries). -/
structure StringDictionary where
  dictionaryBlob : List Nat
  dictionaryOffset : List Int

/-- `StringDictionary::getValueByIndex(index, valPtr, length)` (Vector.hh
lines 362-371).  Success returns the pair (offset of the value inside
`dictionaryBlob`, byte length); the C++ out-parameter `valPtr` is
`dictionaryBlob.data() + offset`, so the offset stands for the pointer.
The thrown `std::out_of_range` is modelled as `Except.error`. -/
def getValueByIndex (d : StringDictionary) (index : Int) :
    Except String (Int × Int) :=
  if index < 0 ∨ index.toNat + 1 ≥ d.dictionaryOffset.length then
    Except.error "index out of range."
  else
    Except.ok (d.dictionaryOffset.getD index.toNat 0,
      d.dictionaryOffset.getD (index.toNat + 1) 0 -
        d.dictionaryOffset.getD index.toNat 0)

/-- `true` exactly on `Except.error`. -/
def isErr : Except String α → Bool
  | Except.error _ => true
  | Except.ok _ => false

/-! ## The ColumnVectorBatch family (Vector.hh lines 255-558)

The batch variants are declared in the given `Vector.hh`; the bodies of the
per-variant `filter` overrides live in `Vector.cc`, which is not among the
sources, so `filterB` below is modelled from the spec (§4.2, §4.3).
A batch is modelled by its logical content: each per-row buffer is the list
of its first `numElements` entries, so `numElements` is the length of the
`notNull` list. -/

/-- The logical value of one row, used to state that `filter` preserves
"the batch's logical content (values, nulls, order)".  Doubles are carried
opaquely (`filter` moves them, it never computes with them); a string row
is its (pointer offset, length) view into the untouched blob; a
dictionary-encoded row is its code. -/
inductive Value where
  | null
  | int (i : Int)
  | fp (bits : Int)
  | bytes (ptr len : Int)
  | code (c : Int)
  | tuple (fields : List Value)
  | seq (elems : List Value)
  | kv (keys elems : List Value)
  | dec (v : Int)
  | decBig (v : Int)
  | time (sec nano : Int)
  deriving Repr

/-- The closed family of concrete `ColumnVectorBatch` variants (Vector.hh):
Long, Double, String (pointers/lengths; the blob is untouched by `filter`
and not part of the moved state), EncodedString (codes; the shared
dictionary is untouched), Struct, List, Map, Union, Decimal64, Decimal128,
Timestamp. -/
inductive Batch where
  | long (nn : List Bool) (data : List Int)
  | dbl (nn : List Bool) (data : List Int)
  | str (nn : List Bool) (ptrs lens : List Int)
  | enc (nn : List Bool) (codes : List Int)
  | strukt (nn : List Bool) (fields : List Batch)
  | lst (nn : List Bool) (offsets : List Int) (elements : Batch)
  | mp (nn : List Bool) (offsets : List Int) (keys elements : Batch)
  | uni (nn : List Bool) (tags offs : List Nat) (children : List Batch)
  | dec64 (nn : List Bool) (values : List Int)
  | dec128 (nn : List Bool) (values : List Int)
  | ts (nn : List Bool) (seconds nanos : List Int)

/-- Default batch (used only as the `getD` fallback for child lookups). -/
def dfltBatch : Batch := Batch.long [] []

/-- `numElements` of a batch: the length of its (logical) `notNull`
buffer. -/
def nE : Batch → Nat
  | .long nn _ => nn.length
  | .dbl nn _ => nn.length
  | .str nn _ _ => nn.length
  | .enc nn _ => nn.length
  | .strukt nn _ => nn.length
  | .lst nn _ _ => nn.length
  | .mp nn _ _ _ => nn.length
  | .uni nn _ _ _ => nn.length
  | .dec64 nn _ => nn.length
  | .dec128 nn _ => nn.length
  | .ts nn _ _ => nn.length

/-- Compaction of one buffer by a boolean selection: keep entry `i` exactly
when `sel[i]` is true, preserving order. -/
def maskFilter : List Bool → List α → List α
  | s :: ss, x :: xs => if s then x :: maskFilter ss xs else maskFilter ss xs
  | _, _ => []

/-- The number of true entries of a selection (the `true_size` argument of
`ColumnVectorBatch::filter`). -/
def cTrue : List Bool → Nat
  | [] => 0
  | s :: ss => (if s then 1 else 0) + cTrue ss

/-- Consecutive pairs `(offsets[i], offsets[i+1])`. -/
def offPairs (off : List Int) : List (Int × Int) := off.zip off.tail

/-- Row lengths `offsets[i+1] - offsets[i]` of a list/map batch. -/
def lensOf (off : List Int) : List Nat :=
  (offPairs off).map (fun p => (p.2 - p.1).toNat)

/-- The slice `[p.1, p.2)` of `xs`. -/
def segOf (xs : List α) (p : Int × Int) : List α :=
  (xs.drop p.1.toNat).take (p.2 - p.1).toNat

/-- Row `i`'s elements `[offsets[i], offsets[i+1])`, for every row. -/
def segsOf (off : List Int) (xs : List α) : List (List α) :=
  (offPairs off).map (segOf xs)

/-- Offsets rebuilt "by prefix-summing retained range lengths" (spec §4.3):
`sumsFrom lens a = [a, a + lens[0], a + lens[0] + lens[1], ...]`. -/
def sumsFrom : List Nat → Int → List Int
  | [], a => [a]
  | n :: ns, a => a :: sumsFrom ns (a + n)

/-- Split `xs` into consecutive chunks of the given lengths. -/
def chunks : List Nat → List α → List (List α)
  | [], _ => []
  | n :: ns, xs => xs.take n :: chunks ns (xs.drop n)

/-- Non-decreasing offsets (spec §3 invariant for List/Map). -/
def offSorted : List Int → Bool
  | a :: b :: r => decide (a ≤ b) && offSorted (b :: r)
  | _ => true

/-- Modelled from the spec (§4.3, List/Map `filter`; `Vector.cc` is not
among the sources): "the derived element-level boolean selection marks true
for every element index within a retained range, false elsewhere".  Since
offsets are non-decreasing (spec §3), the ranges `[offsets[i],
offsets[i+1])` tile `[offsets[0], offsets[numElements])` in order, so the
marking is: `offsets[0]` leading falses, then each row's range replicated
with that row's selection bit, then trailing falses up to the child
length. -/
def derivedSelList (sel : List Bool) (off : List Int) (childLen : Nat) :
    List Bool :=
  List.replicate (off.headD 0).toNat false ++
    (List.zipWith (fun l s => List.replicate l s) (lensOf off) sel).flatten ++
      List.replicate (childLen - (off.headD 0).toNat - (lensOf off).sum) false

/-- Modelled from the spec (§4.3, Union `filter`): "for each selected
parent row, mark true at `(tag[i], offset[i])` in a per-child derived
selection". -/
def derivedSelUnion (sel : List Bool) (tags offs : List Nat) (c : Nat)
    (childLen : Nat) : List Bool :=
  (List.range childLen).map (fun j =>
    (List.zip sel (List.zip tags offs)).any
      (fun e => e.1 && e.2.1 == c && e.2.2 == j))

/-- The compacted position of original index `j` under selection `s`: the
number of selected indices before `j`. -/
def rankIn (s : List Bool) (j : Nat) : Nat := cTrue (s.take j)

/-- Rows of a struct batch: row `i` is the list of the fields' `i`-th
logical values. -/
def rowsOf : Nat → List (List Value) → List (List Value)
  | 0, _ => []
  | n + 1, cols =>
      cols.map (fun c => c.headD Value.null) :: rowsOf n (cols.map List.tail)

/-- The logical content of a batch: one `Value` per row, `Value.null` where
`notNull` marks the row null.  A list/map row is the slice of the child's
logical rows given by its offsets; a union row is the logical row of child
`tags[i]` at position `offs[i]`. -/
def logicalRows : Batch → List Value
  | .long nn data =>
      List.zipWith (fun v x => if v then Value.int x else Value.null) nn data
  | .dbl nn data =>
      List.zipWith (fun v x => if v then Value.fp x else Value.null) nn data
  | .str nn ptrs lens =>
      List.zipWith (fun v p => if v then Value.bytes p.1 p.2 else Value.null)
        nn (ptrs.zip lens)
  | .enc nn codes =>
      List.zipWith (fun v c => if v then Value.code c else Value.null) nn codes
  | .strukt nn fields =>
      List.zipWith (fun v row => if v then Value.tuple row else Value.null) nn
        (rowsOf nn.length (fields.attach.map (fun x => logicalRows x.1)))
  | .lst nn off el =>
      List.zipWith (fun v seg => if v then Value.seq seg else Value.null) nn
        (segsOf off (logicalRows el))
  | .mp nn off k e =>
      List.zipWith (fun v pr => if v then Value.kv pr.1 pr.2 else Value.null)
        nn ((segsOf off (logicalRows k)).zip (segsOf off (logicalRows e)))
  | .uni nn tags offs children =>
      let rws := children.attach.map (fun x => logicalRows x.1)
      List.zipWith
        (fun v p => if v then (rws.getD p.1 []).getD p.2 Value.null
                    else Value.null)
        nn (tags.zip offs)
  | .dec64 nn vals =>
      List.zipWith (fun v x => if v then Value.dec x else Value.null) nn vals
  | .dec128 nn vals =>
      List.zipWith (fun v x => if v then Value.decBig x else Value.null) nn vals
  | .ts nn s n =>
      List.zipWith (fun v p => if v then Value.time p.1 p.2 else Value.null)
        nn (s.zip n)
  termination_by b => sizeOf b
  decreasing_by
  all_goals simp_wf
  all_goals (try (have h9 := List.sizeOf_lt_of_mem x.2))
  all_goals omega

/-- Structural well-formedness of a batch: parallel buffers have
`numElements` entries; list/map offsets have `numElements + 1`
non-decreasing non-negative entries ending at the child's `numElements`
(spec §3); union rows point inside an existing child (spec §3); children
are recursively well-formed; struct children share the parent's row count
(spec §3). -/
def wfB : Batch → Bool
  | .long nn data => data.length == nn.length
  | .dbl nn data => data.length == nn.length
  | .str nn p l => p.length == nn.length && l.length == nn.length
  | .enc nn c => c.length == nn.length
  | .strukt nn fields =>
      fields.attach.all (fun x => nE x.1 == nn.length && wfB x.1)
  | .lst nn off el =>
      off.length == nn.length + 1 && offSorted off &&
        decide (0 ≤ off.headD 0) && off.getLastD 0 == (nE el : Int) && wfB el
  | .mp nn off k e =>
      off.length == nn.length + 1 && offSorted off &&
        decide (0 ≤ off.headD 0) && off.getLastD 0 == (nE k : Int) &&
        off.getLastD 0 == (nE e : Int) && wfB k && wfB e
  | .uni nn tags offs children =>
      tags.length == nn.length && offs.length == nn.length &&
        (tags.zip offs).all (fun p =>
          decide (p.1 < children.length) &&
            decide (p.2 < nE (children.getD p.1 dfltBatch))) &&
        children.attach.all (fun x => wfB x.1)
  | .dec64 nn vals => vals.length == nn.length
  | .dec128 nn vals => vals.length == nn.length
  | .ts nn s n => s.length == nn.length && n.length == nn.length
  termination_by b => sizeOf b
  decreasing_by
  all_goals simp_wf
  all_goals (try (have h9 := List.sizeOf_lt_of_mem x.2))
  all_goals omega

/-- Modelled from the spec (§4.2, §4.3): the per-variant
`ColumnVectorBatch::filter(f_data, f_size, true_size)` overrides (their
bodies are in `Vector.cc`, not among the sources).  The selection `sel`
combines `f_data`/`f_size`; `true_size` is "the number of ones in filter
data" (Vector.hh line 303) and hence determined by `sel`.  The base class
compacts `notNull`; scalar variants gather-compact their flat buffers;
String compacts pointer/length pairs (the blob is not compacted);
EncodedString compacts only the codes; Struct applies the same selection to
every child; List/Map rebuild offsets by prefix-summing retained range
lengths and filter children with the derived element-level selection; Union
filters each child with its derived selection and remaps offsets to the
child's new compacted positions. -/
def filterB : Batch → List Bool → Batch
  | .long nn data, sel => .long (maskFilter sel nn) (maskFilter sel data)
  | .dbl nn data, sel => .dbl (maskFilter sel nn) (maskFilter sel data)
  | .str nn ptrs lens, sel =>
      .str (maskFilter sel nn) (maskFilter sel ptrs) (maskFilter sel lens)
  | .enc nn codes, sel => .enc (maskFilter sel nn) (maskFilter sel codes)
  | .strukt nn fields, sel =>
      .strukt (maskFilter sel nn) (fields.attach.map (fun x => filterB x.1 sel))
  | .lst nn off el, sel =>
      .lst (maskFilter sel nn) (sumsFrom (maskFilter sel (lensOf off)) 0)
        (filterB el (derivedSelList sel off (nE el)))
  | .mp nn off k e, sel =>
      .mp (maskFilter sel nn) (sumsFrom (maskFilter sel (lensOf off)) 0)
        (filterB k (derivedSelList sel off (nE k)))
        (filterB e (derivedSelList sel off (nE e)))
  | .uni nn tags offs children, sel =>
      .uni (maskFilter sel nn) (maskFilter sel tags)
        ((maskFilter sel (tags.zip offs)).map (fun p =>
          rankIn
            (derivedSelUnion sel tags offs p.1
              (nE (children.getD p.1 dfltBatch))) p.2))
        ((List.range children.length).attach.map (fun x =>
          filterB (children.getD x.1 dfltBatch)
            (derivedSelUnion sel tags offs x.1
              (nE (children.getD x.1 dfltBatch)))))
  | .dec64 nn vals, sel => .dec64 (maskFilter sel nn) (maskFilter sel vals)
  | .dec128 nn vals, sel => .dec128 (maskFilter sel nn) (maskFilter sel vals)
  | .ts nn s n, sel => .ts (maskFilter sel nn) (maskFilter sel s) (maskFilter sel n)
  termination_by b _ => sizeOf b
  decreasing_by
  all_goals simp_wf
  all_goals
  first
  | omega
  | (have h9 := List.sizeOf_lt_of_mem x.2; omega)
  | (have hx := List.mem_range.mp x.2
     have h2 := List.sizeOf_lt_of_mem (List.getElem_mem hx)
     simp only [List.getElem?_eq_getElem hx, Option.getD_some]
     omega)

/-! ## Concrete instances used by the witnesses -/

/-- A trivial stand-in hash function (the development is parametric in the
hash; witnesses instantiate it). -/
def zeroHash : HashFn := fun _ _ _ => 0

/-- A trivial probe derivation (always in range). -/
def noProbes : ProbeFn := fun _ _ => []

/-- A stand-in for the transcendental raw bit count, always 256. -/
def raw256 : Nat → Rat → Nat := fun _ _ => 256

/-- The filter produced by the write path from `raw256`:
256 bits = 32 bytes plus the null-flag byte. -/
def bf33 : BloomFilter :=
  { data := List.replicate 33 0
    num_bytes := 32
    size := 33
    hash_func := zeroHash }

/-- A nested witness batch: a list batch of 3 rows (lengths 2, 0, 3) over a
struct of a long column and a timestamp column. -/
def exB : Batch :=
  Batch.lst [true, false, true] [0, 2, 2, 5]
    (Batch.strukt [true, true, true, true, true]
      [Batch.long [true, true, true, true, true] [1, 2, 3, 4, 5],
       Batch.ts [true, true, true, true, true] [10, 20, 30, 40, 50]
         [0, 0, 0, 0, 0]])

/-! # Theorems -/

/-! ## List helpers -/

theorem getD_replicate_zero : ∀ n i : Nat, (List.replicate n (0 : Nat)).getD i 0 = 0
  | 0, _ => rfl
  | _ + 1, 0 => rfl
  | n + 1, i + 1 => getD_replicate_zero n i

theorem getD_set_self {α : Type} :
    ∀ (l : List α) (i : Nat) (x d : α), i < l.length →
      (l.set i x).getD i d = x
  | _ :: _, 0, _, _, _ => rfl
  | _ :: l, i + 1, x, d, h =>
      getD_set_self l i x d (by simpa using h)
  | [], i, x, d, h => by simp at h

theorem getD_set_ne {α : Type} :
    ∀ (l : List α) (i j : Nat) (x d : α), i ≠ j →
      (l.set i x).getD j d = l.getD j d
  | [], _, _, _, _, _ => rfl
  | _ :: _, 0, 0, _, _, h => absurd rfl h
  | _ :: _, 0, _ + 1, _, _, _ => rfl
  | _ :: _, _ + 1, 0, _, _, _ => rfl
  | _ :: l, i + 1, j + 1, x, d, h =>
      getD_set_ne l i j x d (fun he => h (by rw [he]))

/-- The concrete sizing arithmetic of the witnesses: 256 raw bits round and
clamp to 256 bits. -/
theorem optimal_bit_num_256 : optimal_bit_num 256 = 256 := by
  have hc : Nat.clog 2 256 = 8 := by
    have h1 : Nat.clog 2 256 ≤ 8 :=
      (Nat.le_pow_iff_clog_le (by norm_num)).mp (by norm_num)
    have h2 : 7 < Nat.clog 2 256 :=
      (Nat.pow_lt_iff_lt_clog (by norm_num)).mp (by norm_num)
    omega
  unfold optimal_bit_num nextPow2
  rw [hc]
  norm_num [MINIMUM_BYTES, MAXIMUM_BYTES]

/-- The write path at the witness inputs produces `bf33`. -/
theorem init_write_raw256 :
    init_write zeroHash raw256 1 (1 / 2) HashStrategyPB.HASH_MURMUR3_X64_64 =
      Except.ok bf33 := by
  simp only [init_write, raw256, optimal_bit_num_256, bf33, if_true]

/-! ## C3: StringDictionary::getValueByIndex bounds -/

/-- C3: `getValueByIndex(code)` fails with an out-of-range condition
exactly when `code < 0` or `code + 1 ≥` the offsets-buffer length (so it
fails for `code == keyCount` and for `code == -1`); for every `code` in
`[0, keyCount)` it succeeds and returns the exact stored byte range:
offset `offsets[code]` into the blob and length
`offsets[code+1] - offsets[code]`. -/
theorem C3_getValueByIndex_bounds (d : StringDictionary) (keyCount : Nat)
    (hlen : d.dictionaryOffset.length = keyCount + 1) :
    (∀ code : Int, isErr (getValueByIndex d code) = true ↔
      (code < 0 ∨ code.toNat + 1 ≥ keyCount + 1)) ∧
    isErr (getValueByIndex d (keyCount : Int)) = true ∧
    isErr (getValueByIndex d (-1)) = true ∧
    (∀ code : Nat, code < keyCount →
      getValueByIndex d (code : Int) =
        Except.ok (d.dictionaryOffset.getD code 0,
          d.dictionaryOffset.getD (code + 1) 0 -
            d.dictionaryOffset.getD code 0)) := by
  have herr : ∀ code : Int, isErr (getValueByIndex d code) = true ↔
      (code < 0 ∨ code.toNat + 1 ≥ keyCount + 1) := by
    intro code
    unfold getValueByIndex
    rw [hlen]
    split
    · rename_i h
      exact iff_of_true (by simp [isErr]) h
    · rename_i h
      exact iff_of_false (by simp [isErr]) h
  refine ⟨herr, ?_, ?_, ?_⟩
  · rw [herr]
    right
    simp
  · rw [herr]
    left
    norm_num
  · intro code hc
    unfold getValueByIndex
    rw [hlen]
    split
    · rename_i hbad
      rcases hbad with hneg | hbig
      · exact absurd hneg (by omega)
      · simp only [Int.toNat_natCast] at hbig
        omega
    · simp

/-- C3 witness: a dictionary with 2 keys, offsets `[0, 3, 7]`. -/
theorem C3_witness :
    ((∀ code : Int,
        isErr (getValueByIndex ⟨[9, 9, 9, 9, 9, 9, 9], [0, 3, 7]⟩ code) = true ↔
          (code < 0 ∨ code.toNat + 1 ≥ 2 + 1)) ∧
      isErr (getValueByIndex ⟨[9, 9, 9, 9, 9, 9, 9], [0, 3, 7]⟩ ((2 : Nat) : Int)) = true ∧
      isErr (getValueByIndex ⟨[9, 9, 9, 9, 9, 9, 9], [0, 3, 7]⟩ (-1)) = true ∧
      (∀ code : Nat, code < 2 →
        getValueByIndex ⟨[9, 9, 9, 9, 9, 9, 9], [0, 3, 7]⟩ (code : Int) =
          Except.ok (([0, 3, 7] : List Int).getD code 0,
            ([0, 3, 7] : List Int).getD (code + 1) 0 -
              ([0, 3, 7] : List Int).getD code 0))) :=
  C3_getValueByIndex_bounds ⟨[9, 9, 9, 9, 9, 9, 9], [0, 3, 7]⟩ 2 (by decide)

/-! ## C4: init failure conditions -/

/-- C4 evaluation at the failing input: the read path accepts a 1-byte
buffer.  The claim (and the `DCHECK(size > 1)` at bloom_filter.h line 86)
say any buffer smaller than 2 bytes must fail with an invalid-argument
condition, but in release mode only `size == 0` is rejected: with `size = 1`
the init succeeds and constructs a degenerate filter with `num_bytes = 0`.
The unsupported-strategy part of the claim does hold on both paths, as does
the `size == 0` rejection. -/
theorem C4_read_path_accepts_size_one (H : HashFn) :
    init_read H [0] 1 HashStrategyPB.HASH_MURMUR3_X64_64 =
      Except.ok { data := [0], num_bytes := 0, size := 1, hash_func := H } ∧
    (∀ buf sz, init_read H buf sz HashStrategyPB.HASH_UNKNOWN =
      Except.error "invalid strategy") ∧
    (∀ rawBits n p, init_write H rawBits n p HashStrategyPB.HASH_UNKNOWN =
      Except.error "invalid strategy") ∧
    (∀ buf, init_read H buf 0 HashStrategyPB.HASH_MURMUR3_X64_64 =
      Except.error "invalid size") :=
  ⟨rfl, fun _ _ => rfl, fun _ _ _ => rfl, fun _ => rfl⟩

/-! ## C8: wire layout -/

/-- C8: after any successful init the serialized buffer size equals
`num_bytes + 1`; on the read path `num_bytes` is the given buffer size
minus 1. -/
theorem C8_wire_layout (H : HashFn) (rawBits : Nat → Rat → Nat) (n : Nat)
    (p : Rat) (strat1 strat2 : HashStrategyPB) (buf : List Nat) (sz : Nat)
    (f g : BloomFilter)
    (hw : init_write H rawBits n p strat1 = Except.ok f)
    (hr : init_read H buf sz strat2 = Except.ok g) :
    f.size = f.num_bytes + 1 ∧ g.size = g.num_bytes + 1 ∧
      g.num_bytes = sz - 1 := by
  unfold init_write at hw
  unfold init_read at hr
  split at hw
  · cases hw
    constructor
    · rfl
    · split at hr
      · split at hr
        · cases hr
        · cases hr
          rename_i hsz _
          constructor
          · simp only []
            omega
          · rfl
      · cases hr
  · cases hw

/-- C8 witness: a concrete write-path filter and a concrete read-path
filter. -/
theorem C8_witness :
    bf33.size = bf33.num_bytes + 1 ∧
      (BloomFilter.mk ([5, 6, 7].take 3) 2 3 zeroHash).size =
        (BloomFilter.mk ([5, 6, 7].take 3) 2 3 zeroHash).num_bytes + 1 ∧
      (BloomFilter.mk ([5, 6, 7].take 3) 2 3 zeroHash).num_bytes = 3 - 1 := by
  exact C8_wire_layout zeroHash raw256 1 (1 / 2) HashStrategyPB.HASH_MURMUR3_X64_64
    HashStrategyPB.HASH_MURMUR3_X64_64 [5, 6, 7] 3 bf33
    (BloomFilter.mk ([5, 6, 7].take 3) 2 3 zeroHash) init_write_raw256 rfl

/-! ## C10: reset clears everything including the null flag -/

/-- C10: `reset()` zeroes the entire `_size`-byte buffer, so afterwards the
has-null flag is false (`has_null()` and `test_bytes(nullptr, _)` are
false) and every byte — bit array and flag byte alike — is zero. -/
theorem C10_reset_clears (probes : ProbeFn) (f : BloomFilter) (sz i : Nat) :
    f.reset.hasNullFlag = false ∧
      test_bytes probes f.reset none sz = false ∧
      f.reset.data.getD i 0 = 0 ∧
      f.reset.data.length = f.size := by
  refine ⟨?_, ?_, getD_replicate_zero _ _, List.length_replicate _ _⟩
  · simp [BloomFilter.reset, BloomFilter.hasNullFlag, getD_replicate_zero]
  · simp [test_bytes, BloomFilter.reset, BloomFilter.hasNullFlag,
      getD_replicate_zero]

/-! ## C9: hash determinism across independently built filters -/

/-- Any successfully initialized filter stores the murmur hash function. -/
theorem init_hash_func (H : HashFn) (rawBits : Nat → Rat → Nat) (n : Nat)
    (p : Rat) (buf : List Nat) (sz : Nat) (s : HashStrategyPB)
    (f : BloomFilter)
    (h : init_write H rawBits n p s = Except.ok f ∨
      init_read H buf sz s = Except.ok f) :
    f.hash_func = H := by
  rcases h with h | h
  · unfold init_write at h
    split at h
    · cases h; rfl
    · cases h
  · unfold init_read at h
    split at h
    · split at h
      · cases h
      · cases h; rfl
    · cases h

/-- C9: any two filters successfully initialized with the murmur strategy
(by either init path, over any inputs) compute the same hash code for every
byte string, namely the murmur hash at the fixed seed `DEFAULT_SEED`. -/
theorem C9_hash_determinism (H : HashFn) (rb1 rb2 : Nat → Rat → Nat)
    (n1 n2 : Nat) (p1 p2 : Rat) (buf1 buf2 : List Nat) (sz1 sz2 : Nat)
    (s1 s2 : HashStrategyPB) (f1 f2 : BloomFilter)
    (h1 : init_write H rb1 n1 p1 s1 = Except.ok f1 ∨
      init_read H buf1 sz1 s1 = Except.ok f1)
    (h2 : init_write H rb2 n2 p2 s2 = Except.ok f2 ∨
      init_read H buf2 sz2 s2 = Except.ok f2)
    (v : List Nat) (sz : Nat) :
    f1.hash v sz = f2.hash v sz ∧ f1.hash v sz = H v sz DEFAULT_SEED := by
  have e1 := init_hash_func H rb1 n1 p1 buf1 sz1 s1 f1 h1
  have e2 := init_hash_func H rb2 n2 p2 buf2 sz2 s2 f2 h2
  unfold BloomFilter.hash
  rw [e1, e2]
  exact ⟨rfl, rfl⟩

/-- C9 witness: one write-path filter and one read-path filter. -/
theorem C9_witness :
    bf33.hash [1, 2] 2 = (BloomFilter.mk ([5, 6, 7].take 3) 2 3 zeroHash).hash [1, 2] 2 ∧
      bf33.hash [1, 2] 2 = zeroHash [1, 2] 2 DEFAULT_SEED :=
  C9_hash_determinism zeroHash raw256 raw256 1 1 (1 / 2) (1 / 2) [5, 6, 7]
    [5, 6, 7] 3 3 HashStrategyPB.HASH_MURMUR3_X64_64
    HashStrategyPB.HASH_MURMUR3_X64_64 bf33
    (BloomFilter.mk ([5, 6, 7].take 3) 2 3 zeroHash)
    (Or.inl init_write_raw256) (Or.inr rfl) [1, 2] 2

/-! ## C2: sizing -/

/-- `optimal_bit_num` always yields a power of two between `2^8` bits
(= 32 bytes) and `2^30` bits (= 128 MiB). -/
theorem optimal_pow (m : Nat) :
    ∃ k, 8 ≤ k ∧ k ≤ 30 ∧ optimal_bit_num m = 2 ^ k := by
  unfold optimal_bit_num nextPow2
  have hmin : 8 * MINIMUM_BYTES = 2 ^ 8 := by norm_num [MINIMUM_BYTES]
  have hmax : 8 * MAXIMUM_BYTES = 2 ^ 30 := by norm_num [MAXIMUM_BYTES]
  rw [hmin, hmax]
  generalize Nat.clog 2 m = c
  rcases le_total c 8 with h | h
  · rw [max_eq_right (Nat.pow_le_pow_right (by norm_num) h),
      min_eq_left (Nat.pow_le_pow_right (by norm_num) (by norm_num))]
    exact ⟨8, le_refl _, by norm_num, rfl⟩
  · rw [max_eq_left (Nat.pow_le_pow_right (by norm_num) h)]
    rcases le_total c 30 with h30 | h30
    · rw [min_eq_left (Nat.pow_le_pow_right (by norm_num) h30)]
      exact ⟨c, h, h30, rfl⟩
    · rw [min_eq_right (Nat.pow_le_pow_right (by norm_num) h30)]
      exact ⟨30, by norm_num, le_refl _, rfl⟩

/-- C2: for `n ≥ 1` and `p ∈ (0,1)`, a successful write-path init gives a
`num_bytes` that is a power of two within `[32, 128*1024*1024]`, equal to
the rounded-and-clamped optimal bit count divided by 8. -/
theorem C2_write_sizing (H : HashFn) (rawBits : Nat → Rat → Nat) (n : Nat)
    (p : Rat) (strat : HashStrategyPB) (f : BloomFilter)
    (_hn : 1 ≤ n) (_hp0 : 0 < p) (_hp1 : p < 1)
    (hw : init_write H rawBits n p strat = Except.ok f) :
    (∃ k, f.num_bytes = 2 ^ k) ∧ MINIMUM_BYTES ≤ f.num_bytes ∧
      f.num_bytes ≤ MAXIMUM_BYTES ∧
      f.num_bytes = optimal_bit_num (rawBits n p) / 8 := by
  unfold init_write at hw
  split at hw
  · cases hw
    show (∃ k, optimal_bit_num (rawBits n p) / 8 = 2 ^ k) ∧
      MINIMUM_BYTES ≤ optimal_bit_num (rawBits n p) / 8 ∧
      optimal_bit_num (rawBits n p) / 8 ≤ MAXIMUM_BYTES ∧
      optimal_bit_num (rawBits n p) / 8 = optimal_bit_num (rawBits n p) / 8
    obtain ⟨k, hk8, hk30, hpow⟩ := optimal_pow (rawBits n p)
    have hdiv : optimal_bit_num (rawBits n p) / 8 = 2 ^ (k - 3) := by
      rw [hpow, show (8 : Nat) = 2 ^ 3 by norm_num,
        Nat.pow_div (by omega) (by norm_num)]
    refine ⟨⟨k - 3, hdiv⟩, ?_, ?_, rfl⟩
    · rw [hdiv]
      calc MINIMUM_BYTES = 2 ^ 5 := by norm_num [MINIMUM_BYTES]
        _ ≤ 2 ^ (k - 3) := Nat.pow_le_pow_right (by norm_num) (by omega)
    · rw [hdiv]
      calc 2 ^ (k - 3) ≤ 2 ^ 27 := Nat.pow_le_pow_right (by norm_num) (by omega)
        _ = MAXIMUM_BYTES := by norm_num [MAXIMUM_BYTES]
  · cases hw

/-- C2 witness: `n = 1`, `p = 1/2`, raw bit count 256. -/
theorem C2_witness :
    (∃ k, bf33.num_bytes = 2 ^ k) ∧ MINIMUM_BYTES ≤ bf33.num_bytes ∧
      bf33.num_bytes ≤ MAXIMUM_BYTES ∧
      bf33.num_bytes = optimal_bit_num (raw256 1 (1 / 2)) / 8 :=
  C2_write_sizing zeroHash raw256 1 (1 / 2) HashStrategyPB.HASH_MURMUR3_X64_64
    bf33 (by norm_num) (by norm_num) (by norm_num) init_write_raw256

/-! ## C5: null round-trip -/

/-- C5: adding a null (on any structurally well-formed filter) makes a null
test true; a freshly write-initialized filter tests false for null. -/
theorem C5_null_round_trip (probes : ProbeFn) (f : BloomFilter)
    (hf : bfWF f = true) (sz szB szC : Nat) (H : HashFn)
    (rawBits : Nat → Rat → Nat) (n : Nat) (p : Rat) (g : BloomFilter)
    (hg : init_write H rawBits n p HashStrategyPB.HASH_MURMUR3_X64_64 =
      Except.ok g) :
    test_bytes probes (add_bytes probes f none sz) none szB = true ∧
      test_bytes probes g none szC = false := by
  constructor
  · have hlen : f.num_bytes < f.data.length := by
      unfold bfWF at hf
      simp only [Bool.and_eq_true, beq_iff_eq] at hf
      omega
    simp only [add_bytes, test_bytes, BloomFilter.setHasNull,
      BloomFilter.hasNullFlag]
    rw [getD_set_self _ _ _ _ hlen]
    simp
  · unfold init_write at hg
    rw [if_pos rfl] at hg
    cases hg
    simp only [test_bytes, BloomFilter.hasNullFlag]
    rw [getD_replicate_zero]
    simp

/-- C5 witness. -/
theorem C5_witness :
    test_bytes noProbes (add_bytes noProbes bf33 none 4) none 7 = true ∧
      test_bytes noProbes bf33 none 9 = false :=
  C5_null_round_trip noProbes bf33 (by decide) 4 7 9 zeroHash raw256 1 (1 / 2)
    bf33 init_write_raw256

/-! ## Bit-level helpers for C1 and C6 -/

theorem getD_set_oob {α : Type} :
    ∀ (l : List α) (i j : Nat) (x d : α), l.length ≤ i →
      (l.set i x).getD j d = l.getD j d
  | [], _, _, _, _, _ => rfl
  | _ :: _, 0, _, _, _, h => by simp at h
  | _ :: l, i + 1, 0, x, d, h => rfl
  | a :: l, i + 1, j + 1, x, d, h =>
      getD_set_oob l i j x d (by simpa using h)

theorem setBit_length (d : List Nat) (p : Nat) :
    (setBit d p).length = d.length := by
  simp [setBit]

theorem foldl_setBit_length :
    ∀ (ps : List Nat) (d : List Nat), (ps.foldl setBit d).length = d.length
  | [], _ => rfl
  | p :: ps, d => by
      rw [List.foldl_cons, foldl_setBit_length ps (setBit d p), setBit_length]

theorem testBitAt_setBit_self (d : List Nat) (p : Nat) (h : p / 8 < d.length) :
    testBitAt (setBit d p) p = true := by
  unfold testBitAt setBit
  rw [getD_set_self _ _ _ _ h]
  simp [Nat.testBit_or, Nat.testBit_two_pow_self]

theorem testBitAt_setBit_mono (d : List Nat) (p q : Nat)
    (h : testBitAt d q = true) : testBitAt (setBit d p) q = true := by
  by_cases hpq : p / 8 = q / 8
  · by_cases hlt : p / 8 < d.length
    · unfold testBitAt setBit at *
      rw [hpq] at hlt ⊢
      rw [getD_set_self _ _ _ _ hlt]
      simp only [Nat.testBit_or]
      rw [h]
      simp
    · unfold testBitAt setBit at *
      rw [getD_set_oob _ _ _ _ _ (by omega)]
      exact h
  · unfold testBitAt setBit at *
    rw [getD_set_ne _ _ _ _ _ hpq]
    exact h

theorem foldl_setBit_preserves :
    ∀ (ps : List Nat) (d : List Nat) (q : Nat), testBitAt d q = true →
      testBitAt (ps.foldl setBit d) q = true
  | [], _, _, h => h
  | p :: ps, d, q, h =>
      foldl_setBit_preserves ps (setBit d p) q (testBitAt_setBit_mono d p q h)

theorem foldl_setBit_sets :
    ∀ (ps : List Nat) (d : List Nat), (∀ r ∈ ps, r / 8 < d.length) →
      ∀ p ∈ ps, testBitAt (ps.foldl setBit d) p = true := by
  intro ps
  induction ps with
  | nil => intro d _ p hp; cases hp
  | cons a ps ih =>
      intro d hps p hp
      rw [List.foldl_cons]
      rcases List.mem_cons.mp hp with rfl | hmem
      · exact foldl_setBit_preserves ps _ p
          (testBitAt_setBit_self d p (hps p (List.mem_cons_self p ps)))
      · exact ih (setBit d a)
          (fun r hr => by rw [setBit_length]; exact hps r (List.mem_cons_of_mem a hr))
          p hmem

theorem add_bytes_num_bytes (probes : ProbeFn) (f : BloomFilter)
    (b : Option (List Nat)) (s : Nat) :
    (add_bytes probes f b s).num_bytes = f.num_bytes := by
  cases b <;> rfl

theorem add_bytes_size (probes : ProbeFn) (f : BloomFilter)
    (b : Option (List Nat)) (s : Nat) :
    (add_bytes probes f b s).size = f.size := by
  cases b <;> rfl

theorem add_bytes_hash_func (probes : ProbeFn) (f : BloomFilter)
    (b : Option (List Nat)) (s : Nat) :
    (add_bytes probes f b s).hash_func = f.hash_func := by
  cases b <;> rfl

theorem add_bytes_data_length (probes : ProbeFn) (f : BloomFilter)
    (b : Option (List Nat)) (s : Nat) :
    (add_bytes probes f b s).data.length = f.data.length := by
  cases b
  · simp [add_bytes, BloomFilter.setHasNull]
  · simp [add_bytes, add_hash, foldl_setBit_length]

theorem addSeq_num_bytes (probes : ProbeFn) :
    ∀ (ops : List (Option (List Nat) × Nat)) (f : BloomFilter),
      (addSeq probes f ops).num_bytes = f.num_bytes
  | [], _ => rfl
  | o :: ops, f => by
      rw [show addSeq probes f (o :: ops) =
        addSeq probes (add_bytes probes f o.1 o.2) ops from rfl,
        addSeq_num_bytes probes ops, add_bytes_num_bytes]

theorem addSeq_size (probes : ProbeFn) :
    ∀ (ops : List (Option (List Nat) × Nat)) (f : BloomFilter),
      (addSeq probes f ops).size = f.size
  | [], _ => rfl
  | o :: ops, f => by
      rw [show addSeq probes f (o :: ops) =
        addSeq probes (add_bytes probes f o.1 o.2) ops from rfl,
        addSeq_size probes ops, add_bytes_size]

theorem addSeq_hash_func (probes : ProbeFn) :
    ∀ (ops : List (Option (List Nat) × Nat)) (f : BloomFilter),
      (addSeq probes f ops).hash_func = f.hash_func
  | [], _ => rfl
  | o :: ops, f => by
      rw [show addSeq probes f (o :: ops) =
        addSeq probes (add_bytes probes f o.1 o.2) ops from rfl,
        addSeq_hash_func probes ops, add_bytes_hash_func]

theorem addSeq_data_length (probes : ProbeFn) :
    ∀ (ops : List (Option (List Nat) × Nat)) (f : BloomFilter),
      (addSeq probes f ops).data.length = f.data.length
  | [], _ => rfl
  | o :: ops, f => by
      rw [show addSeq probes f (o :: ops) =
        addSeq probes (add_bytes probes f o.1 o.2) ops from rfl,
        addSeq_data_length probes ops, add_bytes_data_length]

theorem add_bytes_bit_mono (probes : ProbeFn) (f : BloomFilter)
    (b : Option (List Nat)) (s q : Nat) (hq : q / 8 ≠ f.num_bytes)
    (h : testBitAt f.data q = true) :
    testBitAt (add_bytes probes f b s).data q = true := by
  cases b
  · simp only [add_bytes, BloomFilter.setHasNull]
    unfold testBitAt at *
    rw [getD_set_ne _ _ _ _ _ (fun he => hq he.symm)]
    exact h
  · simp only [add_bytes, add_hash]
    exact foldl_setBit_preserves _ _ _ h

theorem addSeq_bit_mono (probes : ProbeFn) :
    ∀ (ops : List (Option (List Nat) × Nat)) (f : BloomFilter) (q : Nat),
      q / 8 ≠ f.num_bytes → testBitAt f.data q = true →
      testBitAt (addSeq probes f ops).data q = true
  | [], _, _, _, h => h
  | o :: ops, f, q, hq, h =>
      addSeq_bit_mono probes ops (add_bytes probes f o.1 o.2) q
        (by rw [add_bytes_num_bytes]; exact hq)
        (add_bytes_bit_mono probes f o.1 o.2 q hq h)

/-! ## C1: no false negatives -/

/-- C1: once `add_bytes(v, size)` has been called on a structurally
well-formed filter, `test_bytes(v, size)` returns true on that filter after
any further sequence of `add_bytes` calls. -/
theorem C1_no_false_negatives (probes : ProbeFn) (hp : probesWF probes)
    (f : BloomFilter) (hf : bfWF f = true) (v : List Nat) (sz : Nat)
    (ops : List (Option (List Nat) × Nat)) :
    test_bytes probes
      (addSeq probes (add_bytes probes f (some v) sz) ops) (some v) sz =
      true := by
  have hwf : f.size = f.num_bytes + 1 ∧ f.data.length = f.size := by
    unfold bfWF at hf
    simp only [Bool.and_eq_true, beq_iff_eq] at hf
    exact hf
  have hnbF : (addSeq probes (add_bytes probes f (some v) sz) ops).num_bytes =
      f.num_bytes := by
    rw [addSeq_num_bytes, add_bytes_num_bytes]
  have hhfF :
      (addSeq probes (add_bytes probes f (some v) sz) ops).hash_func =
        f.hash_func := by
    rw [addSeq_hash_func, add_bytes_hash_func]
  have hcode : (addSeq probes (add_bytes probes f (some v) sz) ops).hash v sz =
      f.hash v sz := by
    unfold BloomFilter.hash
    rw [hhfF]
  simp only [test_bytes, test_hash]
  rw [hcode, hnbF, List.all_eq_true]
  intro p hpmem
  have hrange : p < 8 * f.num_bytes := hp _ _ _ hpmem
  have h1 : testBitAt (add_bytes probes f (some v) sz).data p = true := by
    simp only [add_bytes, add_hash]
    apply foldl_setBit_sets
    · intro r hr
      have := hp _ _ _ hr
      omega
    · exact hpmem
  exact addSeq_bit_mono probes ops _ p
    (by rw [add_bytes_num_bytes]; omega) h1

/-- C1 witness. -/
theorem C1_witness :
    test_bytes noProbes
      (addSeq noProbes (add_bytes noProbes bf33 (some [1, 2]) 2) [(none, 0)])
      (some [1, 2]) 2 = true :=
  C1_no_false_negatives noProbes
    (fun _ _ _ hmem => absurd hmem (List.not_mem_nil _)) bf33 (by decide)
    [1, 2] 2 [(none, 0)]

/-! ## C6: serialization round-trip -/

/-- C6: re-initializing a new filter, via the read path, from the raw
buffer of a write-path filter populated by any sequence of `add_bytes`
calls, preserves every `test_bytes` result (null included). -/
theorem C6_serialization_round_trip (H : HashFn) (probes : ProbeFn)
    (rawBits : Nat → Rat → Nat) (n : Nat) (p : Rat) (f0 G : BloomFilter)
    (ops : List (Option (List Nat) × Nat))
    (h0 : init_write H rawBits n p HashStrategyPB.HASH_MURMUR3_X64_64 =
      Except.ok f0)
    (hG : init_read H (addSeq probes f0 ops).data
      (addSeq probes f0 ops).size HashStrategyPB.HASH_MURMUR3_X64_64 =
      Except.ok G)
    (v : Option (List Nat)) (sz : Nat) :
    test_bytes probes G v sz = test_bytes probes (addSeq probes f0 ops) v sz := by
  unfold init_write at h0
  rw [if_pos rfl] at h0
  obtain ⟨hd0, hn0, hs0, hh0⟩ : f0.data =
        List.replicate (optimal_bit_num (rawBits n p) / 8 + 1) 0 ∧
      f0.num_bytes = optimal_bit_num (rawBits n p) / 8 ∧
      f0.size = optimal_bit_num (rawBits n p) / 8 + 1 ∧
      f0.hash_func = H := by
    cases Except.ok.inj h0
    exact ⟨rfl, rfl, rfl, rfl⟩
  have hFsize : (addSeq probes f0 ops).size =
      optimal_bit_num (rawBits n p) / 8 + 1 := by
    rw [addSeq_size, hs0]
  have hFnb : (addSeq probes f0 ops).num_bytes =
      optimal_bit_num (rawBits n p) / 8 := by
    rw [addSeq_num_bytes, hn0]
  have hFlen : (addSeq probes f0 ops).data.length =
      optimal_bit_num (rawBits n p) / 8 + 1 := by
    rw [addSeq_data_length, hd0]
    simp
  have hFhf : (addSeq probes f0 ops).hash_func = H := by
    rw [addSeq_hash_func, hh0]
  unfold init_read at hG
  rw [if_pos rfl, if_neg (by rw [hFsize]; omega)] at hG
  cases hG
  have htake : (addSeq probes f0 ops).data.take
      (addSeq probes f0 ops).size = (addSeq probes f0 ops).data := by
    apply List.take_of_length_le
    rw [hFlen, hFsize]
  have hnb1 : (addSeq probes f0 ops).size - 1 =
      (addSeq probes f0 ops).num_bytes := by
    rw [hFsize, hFnb]
    omega
  cases v with
  | none =>
      simp only [test_bytes, BloomFilter.hasNullFlag]
      rw [htake, hnb1]
  | some w =>
      simp only [test_bytes, test_hash, BloomFilter.hash]
      rw [htake, hnb1, hFhf]

/-- C6 witness: one value and one null added, then round-tripped. -/
theorem C6_witness :
    test_bytes noProbes
      (BloomFilter.mk
        ((addSeq noProbes bf33 [(some [5], 1), (none, 0)]).data.take
          (addSeq noProbes bf33 [(some [5], 1), (none, 0)]).size)
        ((addSeq noProbes bf33 [(some [5], 1), (none, 0)]).size - 1)
        (addSeq noProbes bf33 [(some [5], 1), (none, 0)]).size zeroHash)
      (some [5]) 1 =
    test_bytes noProbes (addSeq noProbes bf33 [(some [5], 1), (none, 0)])
      (some [5]) 1 :=
  C6_serialization_round_trip zeroHash noProbes raw256 1 (1 / 2) bf33 _
    [(some [5], 1), (none, 0)] init_write_raw256 rfl (some [5]) 1

/-! ## maskFilter lemmas (towards C7) -/

theorem maskFilter_nil {α : Type} (sel : List Bool) :
    maskFilter sel ([] : List α) = [] := by
  cases sel <;> rfl

theorem length_maskFilter {α : Type} :
    ∀ (sel : List Bool) (xs : List α), sel.length = xs.length →
      (maskFilter sel xs).length = cTrue sel
  | [], [], _ => rfl
  | s :: ss, x :: xs, h => by
      have ih := length_maskFilter ss xs (by simpa using h)
      cases s with
      | false => simp [maskFilter, cTrue, ih]
      | true =>
          simp [maskFilter, cTrue, ih]
          omega

theorem cTrue_replicate_true : ∀ n : Nat, cTrue (List.replicate n true) = n
  | 0 => rfl
  | n + 1 => by
      simp [List.replicate, cTrue, cTrue_replicate_true n]
      omega

theorem maskFilter_replicate_true {α : Type} :
    ∀ (n : Nat) (xs : List α), maskFilter (List.replicate n true) xs = xs.take n
  | 0, _ => rfl
  | n + 1, [] => rfl
  | n + 1, x :: xs => by
      simp [List.replicate, maskFilter, maskFilter_replicate_true n xs]

theorem maskFilter_replicate_false {α : Type} :
    ∀ (n : Nat) (xs : List α), maskFilter (List.replicate n false) xs = []
  | 0, _ => rfl
  | _ + 1, [] => rfl
  | n + 1, _ :: xs => by
      simp [List.replicate, maskFilter, maskFilter_replicate_false n xs]

theorem maskFilter_map {α β : Type} (f : α → β) :
    ∀ (sel : List Bool) (xs : List α),
      maskFilter sel (xs.map f) = (maskFilter sel xs).map f
  | [], _ => rfl
  | _ :: _, [] => by simp [maskFilter_nil]
  | s :: ss, x :: xs => by
      cases s <;> simp [maskFilter, maskFilter_map f ss xs]

theorem maskFilter_zipWith {α β γ : Type} (f : α → β → γ) :
    ∀ (sel : List Bool) (xs : List α) (ys : List β),
      sel.length = xs.length → xs.length = ys.length →
      maskFilter sel (List.zipWith f xs ys) =
        List.zipWith f (maskFilter sel xs) (maskFilter sel ys)
  | [], [], [], _, _ => rfl
  | s :: ss, x :: xs, y :: ys, h1, h2 => by
      have ih := maskFilter_zipWith f ss xs ys (by simpa using h1) (by simpa using h2)
      cases s <;> simp [maskFilter, ih]

theorem maskFilter_zip {α β : Type} (sel : List Bool) (xs : List α)
    (ys : List β) (h1 : sel.length = xs.length) (h2 : xs.length = ys.length) :
    maskFilter sel (xs.zip ys) = (maskFilter sel xs).zip (maskFilter sel ys) :=
  maskFilter_zipWith Prod.mk sel xs ys h1 h2

theorem maskFilter_append {α : Type} :
    ∀ (s1 s2 : List Bool) (x1 x2 : List α), s1.length = x1.length →
      maskFilter (s1 ++ s2) (x1 ++ x2) = maskFilter s1 x1 ++ maskFilter s2 x2
  | [], _, [], _, _ => rfl
  | s :: ss, s2, x :: xs, x2, h => by
      have ih := maskFilter_append ss s2 xs x2 (by simpa using h)
      cases s <;> simp [maskFilter, ih]

theorem mem_maskFilter {α : Type} :
    ∀ (sel : List Bool) (xs : List α) (a : α), a ∈ maskFilter sel xs →
      (true, a) ∈ sel.zip xs
  | [], _, _, h => by simp [maskFilter] at h
  | _ :: _, [], _, h => by simp [maskFilter_nil] at h
  | s :: ss, x :: xs, a, h => by
      cases s with
      | true =>
          simp only [maskFilter, if_true] at h
          rcases List.mem_cons.mp h with rfl | hmem
          · exact List.mem_cons_self _ _
          · exact List.mem_cons_of_mem _ (mem_maskFilter ss xs a hmem)
      | false =>
          simp only [maskFilter, if_false] at h
          exact List.mem_cons_of_mem _ (mem_maskFilter ss xs a h)

theorem rank_access {α : Type} :
    ∀ (sel : List Bool) (xs : List α) (j : Nat) (d : α),
      sel.length = xs.length → sel.getD j false = true →
      (maskFilter sel xs).getD (cTrue (sel.take j)) d = xs.getD j d
  | [], [], j, _, _, hj => by simp [List.getD] at hj
  | s :: ss, x :: xs, 0, d, _, hj => by
      have : s = true := by simpa [List.getD] using hj
      subst this
      simp [maskFilter, cTrue, List.getD]
  | s :: ss, x :: xs, j + 1, d, h, hj => by
      have ih := rank_access ss xs j d (by simpa using h)
        (by simpa [List.getD] using hj)
      cases s with
      | true =>
          simp only [maskFilter, cTrue, List.take, if_true]
          rw [show 1 + cTrue (ss.take j) = cTrue (ss.take j) + 1 from Nat.add_comm _ _]
          simpa [List.getD] using ih
      | false =>
          simp only [maskFilter, cTrue, List.take]
          rw [if_neg (by simp), if_neg (by simp),
            show 0 + cTrue (ss.take j) = cTrue (ss.take j) from Nat.zero_add _]
          simpa [List.getD] using ih

theorem zipWith_congr {α β γ : Type} (f g : α → β → γ) :
    ∀ (xs : List α) (ys : List β), (∀ y ∈ ys, ∀ x, f x y = g x y) →
      List.zipWith f xs ys = List.zipWith g xs ys
  | [], _, _ => by simp
  | _ :: _, [], _ => by simp
  | x :: xs, y :: ys, h => by
      simp only [List.zipWith_cons_cons]
      rw [h y (List.mem_cons_self _ _) x,
        zipWith_congr f g xs ys (fun b hb a => h b (List.mem_cons_of_mem _ hb) a)]

/-! ## rowsOf lemmas (struct rows) -/

theorem maskFilter_cons_of_length {α : Type} (s : Bool) (ss : List Bool)
    (c : List α) (d : α) (h : c.length = ss.length + 1) :
    maskFilter (s :: ss) c =
      if s then c.headD d :: maskFilter ss c.tail
      else maskFilter ss c.tail := by
  cases c with
  | nil => simp at h
  | cons x xs => cases s <;> simp [maskFilter]

theorem maskFilter_cons_true {α : Type} (ss : List Bool) (c : List α) (d : α)
    (h : c.length = ss.length + 1) :
    maskFilter (true :: ss) c = c.headD d :: maskFilter ss c.tail := by
  cases c with
  | nil => simp at h
  | cons x xs => rfl

theorem maskFilter_cons_false {α : Type} (ss : List Bool) (c : List α) :
    maskFilter (false :: ss) c = maskFilter ss c.tail := by
  cases c with
  | nil => simp [maskFilter_nil]
  | cons x xs => rfl

theorem length_rowsOf : ∀ (n : Nat) (cols : List (List Value)),
    (rowsOf n cols).length = n
  | 0, _ => rfl
  | n + 1, cols => by simp [rowsOf, length_rowsOf n]

theorem rowsOf_mask : ∀ (sel : List Bool) (cols : List (List Value)),
    (∀ c ∈ cols, c.length = sel.length) →
    rowsOf (cTrue sel) (cols.map (maskFilter sel)) =
      maskFilter sel (rowsOf sel.length cols)
  | [], cols, _ => rfl
  | s :: ss, cols, h => by
      have hmap : cols.map (maskFilter (s :: ss)) =
          cols.map (fun c =>
            if s then c.headD Value.null :: maskFilter ss c.tail
            else maskFilter ss c.tail) :=
        List.map_congr_left (fun c hc =>
          maskFilter_cons_of_length s ss c Value.null (by rw [h c hc]; rfl))
      have htl : ∀ c ∈ cols.map List.tail, c.length = ss.length := by
        intro c hc
        rcases List.mem_map.mp hc with ⟨c0, hc0, rfl⟩
        have := h c0 hc0
        simp only [List.length_cons] at this
        simp [List.length_tail, this]
      have ih := rowsOf_mask ss (cols.map List.tail) htl
      cases s with
      | true =>
          have hmap : cols.map (maskFilter (true :: ss)) =
              cols.map (fun c => c.headD Value.null :: maskFilter ss c.tail) :=
            List.map_congr_left (fun c hc =>
              maskFilter_cons_true ss c Value.null (by rw [h c hc]; rfl))
          have hct : cTrue (true :: ss) = cTrue ss + 1 := by
            simp [cTrue]
            omega
          rw [hmap, hct]
          simp only [rowsOf, List.map_map, List.length_cons]
          have h2 : cols.map (List.tail ∘
              fun c => c.headD Value.null :: maskFilter ss c.tail) =
            (cols.map List.tail).map (maskFilter ss) := by
            rw [List.map_map]
            exact List.map_congr_left (fun c _ => rfl)
          rw [h2, ih]
          rfl
      | false =>
          have hmap : cols.map (maskFilter (false :: ss)) =
              cols.map (fun c => maskFilter ss c.tail) :=
            List.map_congr_left (fun c _ => maskFilter_cons_false ss c)
          have hct : cTrue (false :: ss) = cTrue ss := by simp [cTrue]
          rw [hmap, hct]
          have h2 : cols.map (fun c => maskFilter ss c.tail) =
              (cols.map List.tail).map (maskFilter ss) := by
            rw [List.map_map]
            exact List.map_congr_left (fun c _ => rfl)
          rw [h2, ih]
          rfl

/-! ## chunks / sumsFrom / segsOf lemmas (list and map rows) -/

theorem lensOf_length (off : List Int) : (lensOf off).length = off.length - 1 := by
  simp [lensOf, offPairs]

theorem length_segsOf {α : Type} (off : List Int) (xs : List α) :
    (segsOf off xs).length = off.length - 1 := by
  simp [segsOf, offPairs]

theorem chunks_take {α : Type} : ∀ (lens : List Nat) (xs : List α),
    chunks lens (xs.take lens.sum) = chunks lens xs
  | [], _ => rfl
  | n :: ns, xs => by
      simp only [chunks, List.sum_cons]
      congr 1
      · rw [List.take_take]
        congr 1
        omega
      · rw [List.drop_take, show n + ns.sum - n = ns.sum from by omega,
          chunks_take ns (xs.drop n)]

theorem lensOf_cons_sumsFrom : ∀ (ns : List Nat) (a b : Int),
    lensOf (b :: sumsFrom ns a) = (a - b).toNat :: lensOf (sumsFrom ns a)
  | [], _, _ => rfl
  | _ :: _, _, _ => rfl

theorem lensOf_sumsFrom : ∀ (lens : List Nat) (a : Int),
    lensOf (sumsFrom lens a) = lens
  | [], _ => rfl
  | n :: ns, a => by
      show lensOf (a :: sumsFrom ns (a + n)) = n :: ns
      rw [lensOf_cons_sumsFrom, lensOf_sumsFrom ns (a + n)]
      congr 1
      omega

theorem sorted_cons_sumsFrom : ∀ (ns : List Nat) (a b : Int),
    offSorted (b :: sumsFrom ns a) =
      (decide (b ≤ a) && offSorted (sumsFrom ns a))
  | [], _, _ => rfl
  | _ :: _, _, _ => rfl

theorem sumsFrom_sorted : ∀ (lens : List Nat) (a : Int),
    offSorted (sumsFrom lens a) = true
  | [], _ => rfl
  | n :: ns, a => by
      show offSorted (a :: sumsFrom ns (a + n)) = true
      rw [sorted_cons_sumsFrom, sumsFrom_sorted ns (a + n)]
      simp

theorem sumsFrom_headD : ∀ (lens : List Nat) (a : Int),
    (sumsFrom lens a).headD 0 = a
  | [], _ => rfl
  | _ :: _, _ => rfl

theorem getLastD_cons_cons (a b : Int) (r : List Int) (d : Int) :
    (a :: b :: r).getLastD d = (b :: r).getLastD d := by
  rw [List.getLastD_eq_getLast?, List.getLastD_eq_getLast?,
    List.getLast?_cons_cons]

theorem sorted_head_le_last : ∀ (r : List Int) (b : Int),
    offSorted (b :: r) = true → b ≤ (b :: r).getLastD 0
  | [], b, _ => le_refl b
  | c :: r, b, h => by
      simp only [offSorted, Bool.and_eq_true, decide_eq_true_eq] at h
      rw [getLastD_cons_cons]
      exact le_trans h.1 (sorted_head_le_last r c h.2)

theorem sum_lensOf : ∀ (off : List Int), offSorted off = true →
    0 ≤ off.headD 0 →
    (lensOf off).sum = (off.getLastD 0).toNat - (off.headD 0).toNat
  | [], _, _ => rfl
  | [a], _, _ => by
      simp [lensOf, offPairs]
  | a :: b :: r, h, h0 => by
      simp only [offSorted, Bool.and_eq_true, decide_eq_true_eq] at h
      simp only [List.headD_cons] at h0 ⊢
      have hab := h.1
      have ih := sum_lensOf (b :: r) h.2 (by simpa using le_trans h0 hab)
      simp only [List.headD_cons] at ih
      have hbl := sorted_head_le_last r b h.2
      rw [show lensOf (a :: b :: r) = (b - a).toNat :: lensOf (b :: r) from rfl,
        List.sum_cons, ih, getLastD_cons_cons]
      omega

theorem segsOf_eq_chunks {α : Type} : ∀ (off : List Int) (xs : List α),
    offSorted off = true → 0 ≤ off.headD 0 →
    segsOf off xs = chunks (lensOf off) (xs.drop (off.headD 0).toNat)
  | [], _, _, _ => rfl
  | [_], _, _, _ => rfl
  | a :: b :: r, xs, h, h0 => by
      simp only [offSorted, Bool.and_eq_true, decide_eq_true_eq] at h
      simp only [List.headD_cons] at h0 ⊢
      have hab := h.1
      have ih := segsOf_eq_chunks (b :: r) xs h.2 (by simpa using le_trans h0 hab)
      simp only [List.headD_cons] at ih
      show segOf xs (a, b) :: segsOf (b :: r) xs = _
      rw [ih]
      show (xs.drop a.toNat).take (b - a).toNat :: _ =
        (xs.drop a.toNat).take (b - a).toNat ::
          chunks (lensOf (b :: r)) ((xs.drop a.toNat).drop (b - a).toNat)
      congr 1
      rw [List.drop_drop, show a.toNat + (b - a).toNat = b.toNat from by omega]

/-- Filtering chunked data with the row-replicated selection commutes with
chunking: the compacted chunks of the compacted data are the selected
chunks. -/
theorem maskFilter_flatten_chunks {α : Type} :
    ∀ (lens : List Nat) (sel : List Bool) (xs : List α),
      lens.length = sel.length → xs.length = lens.sum →
      chunks (maskFilter sel lens)
          (maskFilter
            ((List.zipWith (fun l s => List.replicate l s) lens sel).flatten)
            xs) =
        maskFilter sel (chunks lens xs)
  | [], [], _, _, _ => rfl
  | [], _ :: _, _, hl, _ => by simp at hl
  | _ :: _, [], _, hl, _ => by simp at hl
  | n :: ns, s :: ss, xs, hl, hx => by
      have hx' : xs.length = n + ns.sum := by simpa using hx
      have htn : (xs.take n).length = n := by
        rw [List.length_take]
        omega
      have hdr : (xs.drop n).length = ns.sum := by
        rw [List.length_drop]
        omega
      have hflat :
          (List.zipWith (fun l s => List.replicate l s) (n :: ns)
            (s :: ss)).flatten =
          List.replicate n s ++
            (List.zipWith (fun l s => List.replicate l s) ns ss).flatten := by
        simp
      rw [hflat]
      conv_lhs => rw [show xs = xs.take n ++ xs.drop n from
        (List.take_append_drop n xs).symm]
      rw [maskFilter_append (List.replicate n s) _ (xs.take n) (xs.drop n)
        (by rw [List.length_replicate, htn])]
      cases s with
      | true =>
          rw [maskFilter_replicate_true, List.take_take, Nat.min_self]
          show chunks (n :: maskFilter ss ns)
            (xs.take n ++ maskFilter _ (xs.drop n)) = _
          simp only [chunks]
          rw [List.take_left' htn, List.drop_left' htn,
            maskFilter_flatten_chunks ns ss (xs.drop n) (by simpa using hl) hdr]
          rfl
      | false =>
          rw [maskFilter_replicate_false, List.nil_append]
          show chunks (maskFilter ss ns) (maskFilter _ (xs.drop n)) = _
          rw [maskFilter_flatten_chunks ns ss (xs.drop n) (by simpa using hl) hdr]
          rfl

/-- The key List/Map `filter` fact: rebuilding offsets by prefix-summing
the retained lengths and filtering the child with the derived element
selection yields exactly the selected rows' element slices. -/
theorem segsMask {α : Type} (off : List Int) (sel : List Bool) (xs : List α)
    (hs : offSorted off = true) (h0 : 0 ≤ off.headD 0)
    (hlen : off.length = sel.length + 1)
    (hxs : (xs.length : Int) = off.getLastD 0) :
    segsOf (sumsFrom (maskFilter sel (lensOf off)) 0)
        (maskFilter (derivedSelList sel off xs.length) xs) =
      maskFilter sel (segsOf off xs) := by
  have hlens_len : (lensOf off).length = sel.length := by
    rw [lensOf_length]
    omega
  have hhl : off.headD 0 ≤ off.getLastD 0 := by
    cases off with
    | nil => simp at hlen
    | cons a r =>
        simp only [List.headD_cons]
        exact sorted_head_le_last r a hs
  have hsum : (lensOf off).sum = xs.length - (off.headD 0).toNat := by
    rw [sum_lensOf off hs h0]
    omega
  have hpad : xs.length - (off.headD 0).toNat - (lensOf off).sum = 0 := by
    omega
  have hder : derivedSelList sel off xs.length =
      List.replicate (off.headD 0).toNat false ++
        (List.zipWith (fun l s => List.replicate l s) (lensOf off)
          sel).flatten := by
    unfold derivedSelList
    rw [hpad]
    simp
  rw [hder]
  have htn : (xs.take (off.headD 0).toNat).length = (off.headD 0).toNat := by
    rw [List.length_take]
    omega
  conv_lhs => rw [show xs = xs.take (off.headD 0).toNat ++
    xs.drop (off.headD 0).toNat from (List.take_append_drop _ xs).symm]
  rw [maskFilter_append _ _ _ _ (by rw [List.length_replicate, htn]),
    maskFilter_replicate_false, List.nil_append,
    segsOf_eq_chunks (sumsFrom (maskFilter sel (lensOf off)) 0) _
      (sumsFrom_sorted _ _) (by rw [sumsFrom_headD]),
    sumsFrom_headD]
  simp only [Int.toNat_zero, List.drop_zero]
  rw [lensOf_sumsFrom,
    maskFilter_flatten_chunks (lensOf off) sel (xs.drop _) hlens_len
      (by rw [List.length_drop]; omega),
    segsOf_eq_chunks off xs hs h0]

/-! ## getD and length helpers for the batch proofs -/

theorem getD_range_map {β : Type} (n : Nat) (g : Nat → β) (j : Nat) (d : β)
    (hj : j < n) : ((List.range n).map g).getD j d = g j := by
  have hlen : j < ((List.range n).map g).length := by simpa
  rw [List.getD_eq_getElem _ _ hlen, List.getElem_map, List.getElem_range]

theorem getD_map_of_lt {α β : Type} (l : List α) (f : α → β) (t : Nat) (d : β)
    (d0 : α) (ht : t < l.length) :
    (l.map f).getD t d = f (l.getD t d0) := by
  have h1 : t < (l.map f).length := by simpa
  rw [List.getD_eq_getElem _ _ h1, List.getElem_map, List.getD_eq_getElem _ _ ht]

theorem length_derivedSelUnion (sel : List Bool) (tags offs : List Nat)
    (c n : Nat) : (derivedSelUnion sel tags offs c n).length = n := by
  simp [derivedSelUnion]

theorem length_flatten_repl :
    ∀ (lens : List Nat) (sel : List Bool), lens.length = sel.length →
      ((List.zipWith (fun l s => List.replicate l s) lens sel).flatten).length =
        lens.sum
  | [], [], _ => rfl
  | [], _ :: _, h => by simp at h
  | _ :: _, [], h => by simp at h
  | n :: ns, s :: ss, h => by
      simp [length_flatten_repl ns ss (by simpa using h)]

theorem length_derivedSelList (sel : List Bool) (off : List Int) (cl : Nat)
    (hlen : (lensOf off).length = sel.length)
    (hle : (off.headD 0).toNat + (lensOf off).sum ≤ cl) :
    (derivedSelList sel off cl).length = cl := by
  unfold derivedSelList
  rw [List.length_append, List.length_append, List.length_replicate,
    List.length_replicate, length_flatten_repl _ _ hlen]
  omega

theorem derivedSelUnion_getD_true (sel : List Bool) (tags offs : List Nat)
    (c n j : Nat) (hj : j < n)
    (hmem : (true, (c, j)) ∈ sel.zip (tags.zip offs)) :
    (derivedSelUnion sel tags offs c n).getD j false = true := by
  unfold derivedSelUnion
  rw [getD_range_map n _ j false hj, List.any_eq_true]
  exact ⟨(true, (c, j)), hmem, by simp⟩

theorem length_logicalRows : ∀ (b : Batch), wfB b = true →
    (logicalRows b).length = nE b := by
  intro b hw
  cases b with
  | long nn data =>
      simp only [wfB, beq_iff_eq] at hw
      simp [logicalRows, nE, hw]
  | dbl nn data =>
      simp only [wfB, beq_iff_eq] at hw
      simp [logicalRows, nE, hw]
  | str nn ptrs lens =>
      simp only [wfB, Bool.and_eq_true, beq_iff_eq] at hw
      simp [logicalRows, nE, List.length_zip, hw.1, hw.2]
  | enc nn codes =>
      simp only [wfB, beq_iff_eq] at hw
      simp [logicalRows, nE, hw]
  | strukt nn fields =>
      simp [logicalRows, nE, length_rowsOf]
  | lst nn off el =>
      simp only [wfB, Bool.and_eq_true, beq_iff_eq] at hw
      have hol := hw.1.1.1.1
      simp [logicalRows, nE, length_segsOf, hol]
  | mp nn off k e =>
      simp only [wfB, Bool.and_eq_true, beq_iff_eq] at hw
      have hol := hw.1.1.1.1.1.1
      simp [logicalRows, nE, length_segsOf, List.length_zip, hol]
  | uni nn tags offs children =>
      simp only [wfB, Bool.and_eq_true, beq_iff_eq] at hw
      have h1 := hw.1.1.1
      have h2 := hw.1.1.2
      simp [logicalRows, nE, List.length_zip, h1, h2]
  | dec64 nn vals =>
      simp only [wfB, beq_iff_eq] at hw
      simp [logicalRows, nE, hw]
  | dec128 nn vals =>
      simp only [wfB, beq_iff_eq] at hw
      simp [logicalRows, nE, hw]
  | ts nn s n =>
      simp only [wfB, Bool.and_eq_true, beq_iff_eq] at hw
      simp [logicalRows, nE, List.length_zip, hw.1, hw.2]

theorem nE_filterB (b : Batch) (sel : List Bool) (h : sel.length = nE b) :
    nE (filterB b sel) = cTrue sel := by
  cases b <;>
    (simp only [filterB, nE]
     exact length_maskFilter sel _ (by simpa [nE] using h))

theorem wfB_strukt_mem (nn : List Bool) (fields : List Batch)
    (hw : wfB (Batch.strukt nn fields) = true) :
    ∀ f ∈ fields, nE f = nn.length ∧ wfB f = true := by
  simp only [wfB] at hw
  intro f hf
  have := List.all_eq_true.mp hw ⟨f, hf⟩ (List.mem_attach _ _)
  simpa using this

theorem wfB_uni_parts (nn : List Bool) (tags offs : List Nat)
    (children : List Batch)
    (hw : wfB (Batch.uni nn tags offs children) = true) :
    tags.length = nn.length ∧ offs.length = nn.length ∧
      (∀ p ∈ tags.zip offs, p.1 < children.length ∧
        p.2 < nE (children.getD p.1 dfltBatch)) ∧
      (∀ c ∈ children, wfB c = true) := by
  simp only [wfB, Bool.and_eq_true, beq_iff_eq] at hw
  obtain ⟨⟨⟨h1, h2⟩, h3⟩, h4⟩ := hw
  refine ⟨h1, h2, ?_, ?_⟩
  · intro p hp
    have := List.all_eq_true.mp h3 p hp
    simpa using this
  · intro c hc
    have := List.all_eq_true.mp h4 ⟨c, hc⟩ (List.mem_attach _ _)
    simpa using this

/-- The central `filter` fact: on a well-formed batch, filtering with any
selection of the right length turns the logical row list into exactly the
selected rows, in order — for every variant, recursively. -/
theorem filterB_mask (b : Batch) (sel : List Bool) (hw : wfB b = true)
    (hl : sel.length = nE b) :
    logicalRows (filterB b sel) = maskFilter sel (logicalRows b) := by
  cases b with
  | long nn data =>
      simp only [wfB, beq_iff_eq] at hw
      simp only [nE] at hl
      simp only [filterB, logicalRows]
      rw [maskFilter_zipWith _ sel nn data hl hw.symm]
  | dbl nn data =>
      simp only [wfB, beq_iff_eq] at hw
      simp only [nE] at hl
      simp only [filterB, logicalRows]
      rw [maskFilter_zipWith _ sel nn data hl hw.symm]
  | str nn ptrs lens =>
      simp only [wfB, Bool.and_eq_true, beq_iff_eq] at hw
      simp only [nE] at hl
      simp only [filterB, logicalRows]
      rw [← maskFilter_zip sel ptrs lens (by omega) (by omega),
        maskFilter_zipWith _ sel nn (ptrs.zip lens) hl
          (by rw [List.length_zip]; omega)]
  | enc nn codes =>
      simp only [wfB, beq_iff_eq] at hw
      simp only [nE] at hl
      simp only [filterB, logicalRows]
      rw [maskFilter_zipWith _ sel nn codes hl hw.symm]
  | dec64 nn vals =>
      simp only [wfB, beq_iff_eq] at hw
      simp only [nE] at hl
      simp only [filterB, logicalRows]
      rw [maskFilter_zipWith _ sel nn vals hl hw.symm]
  | dec128 nn vals =>
      simp only [wfB, beq_iff_eq] at hw
      simp only [nE] at hl
      simp only [filterB, logicalRows]
      rw [maskFilter_zipWith _ sel nn vals hl hw.symm]
  | ts nn s n =>
      simp only [wfB, Bool.and_eq_true, beq_iff_eq] at hw
      simp only [nE] at hl
      simp only [filterB, logicalRows]
      rw [← maskFilter_zip sel s n (by omega) (by omega),
        maskFilter_zipWith _ sel nn (s.zip n) hl
          (by rw [List.length_zip]; omega)]
  | strukt nn fields =>
      simp only [nE] at hl
      have hmem := wfB_strukt_mem nn fields hw
      simp only [filterB, logicalRows]
      rw [show (fields.attach.map fun x => filterB x.1 sel) =
            fields.map (fun f => filterB f sel) from
          List.attach_map_val fields (fun f => filterB f sel)]
      simp only [List.attach_map_coe]
      rw [List.map_map]
      have hcols : fields.map (logicalRows ∘ fun f => filterB f sel) =
          (fields.map logicalRows).map (maskFilter sel) := by
        rw [List.map_map]
        apply List.map_congr_left
        intro f hf
        exact filterB_mask f sel (hmem f hf).2 (by rw [hl, (hmem f hf).1])
      rw [hcols, length_maskFilter sel nn hl]
      have hcl : ∀ c ∈ fields.map logicalRows, c.length = sel.length := by
        intro c hc
        rcases List.mem_map.mp hc with ⟨f, hf, rfl⟩
        rw [length_logicalRows f (hmem f hf).2, (hmem f hf).1, hl]
      rw [rowsOf_mask sel (fields.map logicalRows) hcl, ← hl,
        maskFilter_zipWith _ sel nn
          (rowsOf sel.length (fields.map logicalRows)) hl
          (by rw [length_rowsOf]; omega)]
  | lst nn off el =>
      simp only [wfB, Bool.and_eq_true, beq_iff_eq, decide_eq_true_eq] at hw
      obtain ⟨⟨⟨⟨holen, hsort⟩, hhead⟩, hlast⟩, hwel⟩ := hw
      simp only [nE] at hl
      have hlrows : (logicalRows el).length = nE el := length_logicalRows el hwel
      have hoffsel : off.length = sel.length + 1 := by omega
      have hh0l : off.headD 0 ≤ off.getLastD 0 := by
        cases off with
        | nil => simp at holen
        | cons a r =>
            simp only [List.headD_cons]
            exact sorted_head_le_last r a hsort
      have hsum0 : (lensOf off).sum =
          (off.getLastD 0).toNat - (off.headD 0).toNat :=
        sum_lensOf off hsort hhead
      have hlast' : ((logicalRows el).length : Int) = off.getLastD 0 := by
        rw [hlrows]
        exact hlast.symm
      have hdl : (derivedSelList sel off (logicalRows el).length).length =
          (logicalRows el).length :=
        length_derivedSelList sel off _ (by rw [lensOf_length]; omega)
          (by omega)
      simp only [filterB, logicalRows]
      rw [show nE el = (logicalRows el).length from hlrows.symm,
        filterB_mask el (derivedSelList sel off (logicalRows el).length) hwel
          (by rw [hdl, hlrows]),
        segsMask off sel (logicalRows el) hsort hhead hoffsel hlast',
        maskFilter_zipWith _ sel nn (segsOf off (logicalRows el)) hl
          (by rw [length_segsOf]; omega)]
  | mp nn off k e =>
      simp only [wfB, Bool.and_eq_true, beq_iff_eq, decide_eq_true_eq] at hw
      obtain ⟨⟨⟨⟨⟨⟨holen, hsort⟩, hhead⟩, hlastk⟩, hlaste⟩, hwk⟩, hwe⟩ := hw
      simp only [nE] at hl
      have hkrows : (logicalRows k).length = nE k := length_logicalRows k hwk
      have herows : (logicalRows e).length = nE e := length_logicalRows e hwe
      have hoffsel : off.length = sel.length + 1 := by omega
      have hh0l : off.headD 0 ≤ off.getLastD 0 := by
        cases off with
        | nil => simp at holen
        | cons a r =>
            simp only [List.headD_cons]
            exact sorted_head_le_last r a hsort
      have hsum0 : (lensOf off).sum =
          (off.getLastD 0).toNat - (off.headD 0).toNat :=
        sum_lensOf off hsort hhead
      have hlastk' : ((logicalRows k).length : Int) = off.getLastD 0 := by
        rw [hkrows]
        exact hlastk.symm
      have hlaste' : ((logicalRows e).length : Int) = off.getLastD 0 := by
        rw [herows]
        exact hlaste.symm
      have hdlk : (derivedSelList sel off (logicalRows k).length).length =
          (logicalRows k).length :=
        length_derivedSelList sel off _ (by rw [lensOf_length]; omega)
          (by omega)
      have hdle : (derivedSelList sel off (logicalRows e).length).length =
          (logicalRows e).length :=
        length_derivedSelList sel off _ (by rw [lensOf_length]; omega)
          (by omega)
      simp only [filterB, logicalRows]
      rw [show nE k = (logicalRows k).length from hkrows.symm,
        show nE e = (logicalRows e).length from herows.symm,
        filterB_mask k (derivedSelList sel off (logicalRows k).length) hwk
          (by rw [hdlk, hkrows]),
        filterB_mask e (derivedSelList sel off (logicalRows e).length) hwe
          (by rw [hdle, herows]),
        segsMask off sel (logicalRows k) hsort hhead hoffsel hlastk',
        segsMask off sel (logicalRows e) hsort hhead hoffsel hlaste',
        ← maskFilter_zip sel (segsOf off (logicalRows k))
          (segsOf off (logicalRows e)) (by rw [length_segsOf]; omega)
          (by rw [length_segsOf, length_segsOf]),
        maskFilter_zipWith _ sel nn _ hl
          (by rw [List.length_zip, length_segsOf, length_segsOf]; omega)]
  | uni nn tags offs children =>
      obtain ⟨htl, hol, hall, hch⟩ := wfB_uni_parts nn tags offs children hw
      simp only [nE] at hl
      simp only [filterB, logicalRows]
      rw [show ((List.range children.length).attach.map fun x =>
            filterB (children.getD x.1 dfltBatch)
              (derivedSelUnion sel tags offs x.1
                (nE (children.getD x.1 dfltBatch)))) =
          (List.range children.length).map (fun c =>
            filterB (children.getD c dfltBatch)
              (derivedSelUnion sel tags offs c
                (nE (children.getD c dfltBatch)))) from
          List.attach_map_val (List.range children.length) (fun c =>
            filterB (children.getD c dfltBatch)
              (derivedSelUnion sel tags offs c
                (nE (children.getD c dfltBatch))))]
      simp only [List.attach_map_coe]
      simp only [List.map_map]
      have hztags : maskFilter sel tags =
          (maskFilter sel (tags.zip offs)).map Prod.fst := by
        rw [← maskFilter_map]
        congr 1
        exact (List.map_fst_zip tags offs (by omega)).symm
      rw [hztags, List.zip_map', List.zipWith_map_right,
        maskFilter_zipWith _ sel nn (tags.zip offs) hl
          (by rw [List.length_zip]; omega)]
      apply zipWith_congr
      intro p hp v
      have hzmem : (true, p) ∈ sel.zip (tags.zip offs) := mem_maskFilter _ _ _ hp
      have hpmem : p ∈ tags.zip offs := (List.of_mem_zip hzmem).2
      obtain ⟨hc, ho⟩ := hall p hpmem
      cases v with
      | false => simp
      | true =>
          simp only [if_true]
          have hcmem : children.getD p.1 dfltBatch ∈ children := by
            rw [List.getD_eq_getElem _ _ hc]
            exact List.getElem_mem hc
          have hwc := hch _ hcmem
          have hcrows : (logicalRows (children.getD p.1 dfltBatch)).length =
              nE (children.getD p.1 dfltBatch) :=
            length_logicalRows _ hwc
          rw [getD_range_map children.length _ p.1 [] hc]
          simp only [Function.comp]
          rw [filterB_mask (children.getD p.1 dfltBatch)
              (derivedSelUnion sel tags offs p.1
                (nE (children.getD p.1 dfltBatch))) hwc
              (length_derivedSelUnion _ _ _ _ _),
            getD_map_of_lt children logicalRows p.1 [] dfltBatch hc]
          show (maskFilter
              (derivedSelUnion sel tags offs p.1
                (nE (children.getD p.1 dfltBatch)))
              (logicalRows (children.getD p.1 dfltBatch))).getD
            (cTrue ((derivedSelUnion sel tags offs p.1
                (nE (children.getD p.1 dfltBatch))).take p.2)) Value.null =
            (logicalRows (children.getD p.1 dfltBatch)).getD p.2 Value.null
          apply rank_access
          · rw [length_derivedSelUnion, hcrows]
          · exact derivedSelUnion_getD_true sel tags offs p.1 _ p.2 ho
              (by simpa using hzmem)
  termination_by sizeOf b
  decreasing_by
  all_goals subst_vars
  all_goals simp_wf
  all_goals
  first
  | omega
  | (have h9 := List.sizeOf_lt_of_mem hf; omega)
  | (have h2 := List.sizeOf_lt_of_mem (List.getElem_mem hc)
     simp only [List.getElem?_eq_getElem hc, Option.getD_some]
     omega)

/-! ## C7: filter identity on an all-true selection -/

/-- C7: for every well-formed batch variant, `filter` with an all-true
selection of length `numElements` (so `true_size = numElements`) leaves the
batch's logical content — values, null markers, and their order — unchanged
and keeps `numElements` equal to its prior value. -/
theorem C7_filter_allTrue (b : Batch) (hw : wfB b = true) :
    logicalRows (filterB b (List.replicate (nE b) true)) = logicalRows b ∧
      nE (filterB b (List.replicate (nE b) true)) = nE b := by
  have hsel : (List.replicate (nE b) true).length = nE b :=
    List.length_replicate _ _
  constructor
  · rw [filterB_mask b _ hw hsel, maskFilter_replicate_true,
      List.take_of_length_le (le_of_eq (length_logicalRows b hw))]
  · rw [nE_filterB b _ hsel, cTrue_replicate_true]

/-- C7 witness: a list-of-struct batch with 3 rows over 5 child rows. -/
theorem C7_witness :
    logicalRows (filterB exB (List.replicate (nE exB) true)) = logicalRows exB ∧
      nE (filterB exB (List.replicate (nE exB) true)) = nE exB :=
  C7_filter_allTrue exB (by simp [exB, wfB, nE, offSorted, dfltBatch])

end StarRocks
